import Mathlib

/-!
Verification development for the LogAnalyzer build-log comparison tool.

The Python sources (src/parser.py, src/extractor.py, src/comparator.py,
src/config.py) are embedded shallowly: strings are modelled as `List Char`
wrapped in `String`, the regular expressions used by the sources are
modelled by explicit character scanners with the same matching semantics,
and the stateful parsing loop is modelled by explicit state passing.
-/

namespace LogAnalyzer

/-- Python whitespace predicate as used by str.strip and the regex class
backslash-s: space, tab, newline, carriage return, vertical tab, form feed. -/
def pyWS (c : Char) : Bool :=
  c = ' ' || c = '\t' || c = '\n' || c = '\r' || c = '\x0b' || c = '\x0c'

/-- Python str.lstrip with no argument. -/
def pyLStrip (l : List Char) : List Char := l.dropWhile pyWS

/-- Python str.rstrip with no argument. -/
def pyRStrip (l : List Char) : List Char := (l.reverse.dropWhile pyWS).reverse

/-- Python str.strip with no argument. -/
def pyStrip (l : List Char) : List Char := pyRStrip (pyLStrip l)

/-- Python substring containment, needle in hay. -/
def substrIn (needle hay : List Char) : Bool :=
  match hay with
  | [] => needle.isEmpty
  | _ :: t => needle.isPrefixOf hay || substrIn needle t

/-- parser.calculate_indentation: each leading space counts 1, each leading
tab counts 4, stop at the first other character. -/
def calculate_indentation (l : List Char) : Nat :=
  match l with
  | [] => 0
  | c :: rest =>
    if c = ' ' then 1 + calculate_indentation rest
    else if c = '\t' then 4 + calculate_indentation rest
    else 0

/-- config.TargetStep. -/
structure TargetStep where
  pattern : String
  name : String
deriving DecidableEq

/-- config.WarningPattern. -/
structure WarningPattern where
  pattern : String
  type : String
deriving DecidableEq

/-- config.Config. The ignore_patterns dictionary of the source holds two
regex strings under the keys timestamp and path_prefix; it is modelled here
by two booleans recording whether the key is present, with the semantics of
the default regexes of config.py hard-wired into the normalizer below.
The comparison dictionary is modelled by its single ignore_case flag and
the output dictionary is omitted (never read by parser, extractor or
comparator). -/
structure Config where
  target_steps : List TargetStep
  stage_markers : List String
  warning_patterns : List WarningPattern
  ignore_timestamp : Bool
  ignore_path_prefix : Bool
  ignore_case : Bool

/-- The default Config of config.py. -/
def defaultConfig : Config :=
  { target_steps := [⟨"Step 4/21: BuildOrionPRO", "BuildOrionPRO"⟩]
    stage_markers := ["<build>", "<brcc>", "<dcc>"]
    warning_patterns :=
      [⟨"Warning:", "Warning"⟩, ⟨"Hint:", "Hint"⟩, ⟨"[vip][warning]", "Warning"⟩]
    ignore_timestamp := true
    ignore_path_prefix := true
    ignore_case := false }

/-- parser.BuildStep. -/
structure BuildStep where
  name : String
  level : Nat
  start_line : Nat
  end_line : Nat
  lines : List String
  children : List BuildStep

/-- Timestamp removal at the top of parser._extract_step_info: when the
stripped line starts with an opening square bracket and the line contains a
closing one, cut the line after the first closing bracket, and then after
the first colon when one follows. -/
def cleanTimestamp (l : List Char) : List Char :=
  match pyStrip l with
  | '[' :: _ =>
    if l.contains ']' then
      let after := (l.dropWhile (· ≠ ']')).drop 1
      if after.contains ':' then (after.dropWhile (· ≠ ':')).drop 1
      else after
    else l
  | _ => l

/-- Bracket prefix removal inside parser._extract_step_info: when the
content starts with an opening square bracket and contains a closing one,
drop through the first closing bracket and strip the remainder on the left. -/
def dropBracketPrefix (content : List Char) : List Char :=
  match content with
  | '[' :: _ =>
    if content.contains ']' then pyLStrip ((content.dropWhile (· ≠ ']')).drop 1)
    else content
  | _ => content

/-- First target step whose pattern occurs as a substring of the original
line, as in the target-step loop of parser._extract_step_info. -/
def findTarget (steps : List TargetStep) (l : List Char) : Option String :=
  match steps with
  | [] => none
  | ts :: rest => if substrIn ts.pattern.data l then some ts.name else findTarget rest l

/-- All groups of the regex findall on angle-bracket tokens immediately
followed by a colon, scanned left to right without overlap, exactly as
re.findall applies the pattern of parser._extract_step_info. The first
argument is recursion fuel, always instantiated with the length of the
scanned list. -/
def findMarkers : Nat → List Char → List (List Char)
  | 0, _ => []
  | _, [] => []
  | fuel + 1, c :: rest =>
    if c = '<' then
      let grp := rest.takeWhile (· ≠ '>')
      let after := rest.dropWhile (· ≠ '>')
      match after with
      | '>' :: ':' :: tail =>
        if grp = [] then findMarkers fuel rest else grp :: findMarkers fuel tail
      | _ => findMarkers fuel rest
    else findMarkers fuel rest

/-- First findall group that is a configured stage marker or ends in the
project-file suffix, as in the marker loop of parser._extract_step_info. -/
def findMarkerName (ms : List (List Char)) (markers : List String) : Option (List Char) :=
  match ms with
  | [] => none
  | m :: rest =>
    let mb := '<' :: (m ++ ['>'])
    if markers.any (fun s => s.data = mb) || List.isSuffixOf ".dpr".data m then some mb
    else findMarkerName rest markers

/-- parser._extract_step_info. -/
def extractStepInfo (line : String) (config : Config) : Option (String × Nat) :=
  let l := line.data
  let clean_line := cleanTimestamp l
  let indent := calculate_indentation clean_line
  let content := dropBracketPrefix (pyLStrip clean_line)
  match findTarget config.target_steps l with
  | some nm => some (nm, indent)
  | none =>
    match findMarkerName (findMarkers content.length content) config.stage_markers with
    | some mb => some (String.mk mb, indent)
    | none => none

/-- Closing of a popped chain of open steps: the first element is the top of
the stack; each element is closed by fixing end_line and attached as the
last child of the element below it, matching how parse_log links a pushed
step to the stack top at open time and fixes end_line at pop time. -/
def closeList (ln : Nat) : List BuildStep → Option BuildStep
  | [] => none
  | p :: rest =>
    some (rest.foldl
      (fun acc q => { q with children := q.children ++ [acc], end_line := ln })
      { p with end_line := ln })

/-- The pop-and-close loop of parser.parse_log for a new step at the given
indentation: every stack entry with depth at least indent is popped, closed
with the given end line, and attached below; the collapsed chain becomes a
child of the new stack top, or a new root when the stack empties. -/
def openClose (indent ln : Nat) (stack : List (Nat × BuildStep)) (roots : List BuildStep) :
    List (Nat × BuildStep) × List BuildStep :=
  let popped := stack.takeWhile (fun e => indent ≤ e.1)
  let rest := stack.dropWhile (fun e => indent ≤ e.1)
  match closeList ln (popped.map Prod.snd) with
  | none => (rest, roots)
  | some n =>
    match rest with
    | [] => ([], roots ++ [n])
    | (d, p) :: r => ((d, { p with children := p.children ++ [n] }) :: r, roots)

/-- State of the parse_log loop: the explicit stack of open steps, deepest
first, and the list of closed roots. -/
structure ParseState where
  stack : List (Nat × BuildStep)
  roots : List BuildStep

/-- One iteration of the parse_log loop on the line with number ln. -/
def parseLine (config : Config) (st : ParseState) (ln : Nat) (line : String) : ParseState :=
  if pyStrip line.data = [] then st
  else
    match extractStepInfo line config with
    | some nd =>
      let newStep : BuildStep := ⟨nd.1, nd.2, ln, ln, [line], []⟩
      let sr := openClose nd.2 (ln - 1) st.stack st.roots
      ⟨(nd.2, newStep) :: sr.1, sr.2⟩
    | none =>
      match st.stack with
      | [] => st
      | (d, s) :: rest =>
        ⟨(d, { s with lines := s.lines ++ [line], end_line := ln }) :: rest, st.roots⟩

/-- parser.parse_log on an already-read list of lines: fold the loop over
the lines numbered from 1, then close every step still open with the number
of the last line. -/
def parse_log (lines : List String) (config : Config) : List BuildStep :=
  let st := (List.enumFrom 1 lines).foldl (fun s p => parseLine config s p.1 p.2) ⟨[], []⟩
  match closeList lines.length (st.stack.map Prod.snd) with
  | none => st.roots
  | some n => st.roots ++ [n]

/-- extractor.Warning: one extracted diagnostic record. -/
structure Warning where
  text : String
  original : String
  type : String
  stage : String
  file_path : String
  line_number : Nat
deriving DecidableEq

/-- Character class of the regex token class excluding whitespace and
parentheses. -/
def isTokChar (c : Char) : Bool := !(pyWS c) && c ≠ '(' && c ≠ ')'

/-- ASCII letter, the regex class A-Za-z. -/
def isAsciiLetter (c : Char) : Bool :=
  ('A' ≤ c && c ≤ 'Z') || ('a' ≤ c && c ≤ 'z')

/-- Case-insensitive prefix test on character lists. -/
def ciPrefix : List Char → List Char → Bool
  | [], _ => true
  | _ :: _, [] => false
  | p :: ps, c :: cs => (p.toLower = c.toLower) && ciPrefix ps cs

/-- Exact-case source-file extensions of parse_warning_details. -/
def pwdExt (e1 e2 e3 : Char) : Bool :=
  ([e1, e2, e3] = ['p', 'a', 's']) || ([e1, e2, e3] = ['d', 'p', 'r']) ||
  ([e1, e2, e3] = ['i', 'n', 'c']) || ([e1, e2, e3] = ['P', 'A', 'S']) ||
  ([e1, e2, e3] = ['D', 'P', 'R']) || ([e1, e2, e3] = ['I', 'N', 'C'])

/-- Test that a token run ends in a dot followed by one of the accepted
extensions, with at least one character before the dot. -/
def endsDotExt (extOk : Char → Char → Char → Bool) (run : List Char) : Bool :=
  match run.reverse with
  | e3 :: e2 :: e1 :: '.' :: _ :: _ => extOk e1 e2 e3
  | _ => false

/-- Numeric value of a digit run, as int applied by parse_warning_details. -/
def digitsToNat (ds : List Char) : Nat :=
  ds.foldl (fun n c => n * 10 + (c.toNat - 48)) 0

/-- First branch of the parse_warning_details regex at the current scan
position: drive letter, colon, a token run ending in dot-extension,
immediately followed by a parenthesized digit run. -/
def pwdBranch1 (l : List Char) : Option (List Char × Nat) :=
  match l with
  | c :: ':' :: r =>
    if isAsciiLetter c then
      let run := r.takeWhile isTokChar
      let after := r.dropWhile isTokChar
      if endsDotExt pwdExt run then
        match after with
        | '(' :: a2 =>
          let ds := a2.takeWhile Char.isDigit
          let a3 := a2.dropWhile Char.isDigit
          match a3 with
          | ')' :: _ => if ds = [] then none else some (c :: ':' :: run, digitsToNat ds)
          | _ => none
        | _ => none
      else none
    else none
  | _ => none

/-- Second branch of the parse_warning_details regex at the current scan
position: a colon-free token run ending in dot-extension, immediately
followed by a parenthesized digit run. -/
def pwdBranch2 (l : List Char) : Option (List Char × Nat) :=
  let run := l.takeWhile (fun c => isTokChar c && c ≠ ':')
  let after := l.dropWhile (fun c => isTokChar c && c ≠ ':')
  if endsDotExt pwdExt run then
    match after with
    | '(' :: a2 =>
      let ds := a2.takeWhile Char.isDigit
      let a3 := a2.dropWhile Char.isDigit
      match a3 with
      | ')' :: _ => if ds = [] then none else some (run, digitsToNat ds)
      | _ => none
    | _ => none
  else none

/-- Left-to-right scan of re.search for parse_warning_details, trying the
drive-letter branch before the bare-path branch at every position. The
fuel is always the length of the scanned list. -/
def pwdScan : Nat → List Char → String × Nat
  | 0, _ => ("", 0)
  | _, [] => ("", 0)
  | fuel + 1, l =>
    match pwdBranch1 l with
    | some pn => (String.mk pn.1, pn.2)
    | none =>
      match pwdBranch2 l with
      | some pn => (String.mk pn.1, pn.2)
      | none =>
        match l with
        | [] => ("", 0)
        | _ :: rest => pwdScan fuel rest

/-- extractor.parse_warning_details. -/
def parse_warning_details (text : String) : String × Nat :=
  pwdScan text.data.length text.data

/-- Normalization step removing a leading bracketed Hint or Warning tag and
the following whitespace, case-insensitively. -/
def stripKindTag (l : List Char) : List Char :=
  if ciPrefix "[Hint]".data l then (l.drop 6).dropWhile pyWS
  else if ciPrefix "[Warning]".data l then (l.drop 9).dropWhile pyWS
  else l

/-- Normalization step removing a leading timestamp of the shape bracket,
two digits, colon, two digits, colon, two digits, bracket; the semantics of
the default timestamp ignore pattern. -/
def stripTimestampRe (l : List Char) : List Char :=
  match l with
  | '[' :: a :: b :: ':' :: c :: d :: ':' :: e :: f :: ']' :: rest =>
    if a.isDigit && b.isDigit && c.isDigit && d.isDigit && e.isDigit && f.isDigit then rest
    else l
  | _ => l

/-- Normalization step removing a leading flag: optional whitespace, an
optional letter or space, optional whitespace, a colon, and at least one
whitespace character; matching the anchored regex of normalize_warning with
its backtracking resolved. A match requires the first non-whitespace
character to be the colon itself or a single letter directly preceding
whitespace and the colon. -/
def stripFlag (l : List Char) : List Char :=
  let r := l.dropWhile pyWS
  match r with
  | ':' :: rest =>
    if rest.takeWhile pyWS = [] then l else rest.dropWhile pyWS
  | c :: rest =>
    if isAsciiLetter c then
      match rest.dropWhile pyWS with
      | ':' :: rest2 =>
        if rest2.takeWhile pyWS = [] then l else rest2.dropWhile pyWS
      | _ => l
    else l
  | [] => l

/-- Normalization step removing one leading bracketed token and trailing
whitespace: optional whitespace, an opening bracket, at least one
non-bracket character, a closing bracket, optional whitespace. -/
def stripBracketPrefix (l : List Char) : List Char :=
  let r := l.dropWhile pyWS
  match r with
  | '[' :: rest =>
    let inside := rest.takeWhile (· ≠ ']')
    let after := rest.dropWhile (· ≠ ']')
    match after with
    | ']' :: tail => if inside = [] then l else tail.dropWhile pyWS
    | _ => l
  | _ => l

/-- The literal prefix of the default path_prefix ignore pattern. -/
def buildAreaPrefix : List Char := "N:\\BuildArea\\".data

/-- Global removal of the default path_prefix pattern: the literal prefix,
at least one non-backslash character, and a closing backslash, scanned left
to right without overlap. The fuel is always the length of the list. -/
def stripPathPrefixAll : Nat → List Char → List Char
  | 0, l => l
  | _, [] => []
  | fuel + 1, l =>
    match l with
    | [] => []
    | c :: rest =>
      if buildAreaPrefix.isPrefixOf l then
        let r13 := l.drop 13
        let run := r13.takeWhile (· ≠ '\\')
        let rem := r13.dropWhile (· ≠ '\\')
        match rem with
        | '\\' :: tail =>
          if run = [] then c :: stripPathPrefixAll fuel rest
          else stripPathPrefixAll fuel tail
        | _ => c :: stripPathPrefixAll fuel rest
      else c :: stripPathPrefixAll fuel rest

/-- One of backslash, dot, slash, the separator class of the line-number
removal regex. -/
def isSep (c : Char) : Bool := c = '\\' || c = '.' || c = '/'

/-- Global removal of parenthesized line numbers after a path-like token:
a token run of length at least two containing a separator before its last
character, directly followed by a parenthesized nonempty digit run, is kept
while the parenthesized part is dropped. Scanned left to right; fuel is the
length of the list. -/
def stripLineNums : Nat → List Char → List Char
  | 0, l => l
  | _, [] => []
  | fuel + 1, l =>
    match l with
    | [] => []
    | c :: rest =>
      let run := l.takeWhile isTokChar
      let after := l.dropWhile isTokChar
      match after with
      | '(' :: a2 =>
        let ds := a2.takeWhile Char.isDigit
        let a3 := a2.dropWhile Char.isDigit
        match a3 with
        | ')' :: tail =>
          if 2 ≤ run.length && run.dropLast.any isSep && ds ≠ [] then
            run ++ stripLineNums fuel tail
          else c :: stripLineNums fuel rest
        | _ => c :: stripLineNums fuel rest
      | _ => c :: stripLineNums fuel rest

/-- Case-insensitive extensions of the path-before-keyword removal regex. -/
def kwExt (e1 e2 e3 : Char) : Bool :=
  ([e1.toLower, e2.toLower, e3.toLower] = ['p', 'a', 's']) ||
  ([e1.toLower, e2.toLower, e3.toLower] = ['d', 'p', 'r']) ||
  ([e1.toLower, e2.toLower, e3.toLower] = ['i', 'n', 'c']) ||
  ([e1.toLower, e2.toLower, e3.toLower] = ['t', 'x', 't'])

/-- Global removal of a whitespace-led path token before a Hint or Warning
keyword: optional whitespace, a non-whitespace run ending in a dot and an
accepted extension, at least one whitespace character, the keyword and a
colon are replaced by the keyword and the colon, preserving the original
case of the keyword. Scanned left to right; fuel is the length of the
list. -/
def stripPathBeforeKw : Nat → List Char → List Char
  | 0, l => l
  | _, [] => []
  | fuel + 1, l =>
    match l with
    | [] => []
    | c :: rest =>
      let r := l.dropWhile pyWS
      let run := r.takeWhile (fun c => !(pyWS c))
      let rr := r.dropWhile (fun c => !(pyWS c))
      let w2 := rr.takeWhile pyWS
      let r2 := rr.dropWhile pyWS
      if endsDotExt kwExt run && w2 ≠ [] then
        if ciPrefix "Hint".data r2 && (r2.drop 4).take 1 = [':'] then
          (r2.take 4) ++ ':' :: stripPathBeforeKw fuel (r2.drop 5)
        else if ciPrefix "Warning".data r2 && (r2.drop 7).take 1 = [':'] then
          (r2.take 7) ++ ':' :: stripPathBeforeKw fuel (r2.drop 8)
        else c :: stripPathBeforeKw fuel rest
      else c :: stripPathBeforeKw fuel rest

/-- Whitespace collapsing with a flag recording whether the previous kept
character position was inside a whitespace run. -/
def collapseWSAux : Bool → List Char → List Char
  | _, [] => []
  | prevWS, c :: rest =>
    if pyWS c then
      if prevWS then collapseWSAux true rest else ' ' :: collapseWSAux true rest
    else c :: collapseWSAux false rest

/-- Normalization step collapsing every whitespace run to a single space. -/
def collapseWS (l : List Char) : List Char := collapseWSAux false l

/-- extractor.normalize_warning: the normalization pipeline, steps applied
in source order. -/
def normalize_warning (text : String) (config : Config) : String :=
  let l0 := pyStrip text.data
  let l1 := stripKindTag l0
  let l2 := if config.ignore_timestamp then stripTimestampRe l1 else l1
  let l3 := stripFlag l2
  let l4 := stripBracketPrefix l3
  let l5 := if config.ignore_path_prefix then stripPathPrefixAll l4.length l4 else l4
  let l6 := stripLineNums l5.length l5
  let l7 := stripPathBeforeKw l6.length l6
  let l8 := pyStrip (collapseWS l7)
  let l9 := if config.ignore_case then l8.map Char.toLower else l8
  String.mk l9

/-- First warning pattern whose pattern string occurs as a substring of the
line, as in the pattern loop of extract_warnings. -/
def findWarningPattern (ps : List WarningPattern) (l : List Char) : Option WarningPattern :=
  match ps with
  | [] => none
  | wp :: rest => if substrIn wp.pattern.data l then some wp else findWarningPattern rest l

/-- The Warning records produced by one content line of a stage, zero or
one per line. -/
def lineWarnings (stage : String) (config : Config) (line : String) : List Warning :=
  match findWarningPattern config.warning_patterns line.data with
  | some wp =>
    let fpln := parse_warning_details line
    [⟨normalize_warning line config, String.mk (pyStrip line.data), wp.type, stage,
      fpln.1, fpln.2⟩]
  | none => []

mutual

/-- extractor.extract_warnings: records of the own content lines of the
stage, in line order, followed by the records of the children in order. -/
def extract_warnings : BuildStep → Config → List Warning
  | ⟨name, _, _, _, lines, children⟩, config =>
    (lines.map (lineWarnings name config)).flatten ++ extractWarningsList children config

/-- Extraction over a list of sibling stages, concatenating in order. -/
def extractWarningsList : List BuildStep → Config → List Warning
  | [], _ => []
  | s :: rest, config => extract_warnings s config ++ extractWarningsList rest config

end

/-- comparator.ComparisonResult. -/
structure ComparisonResult where
  stage_name : String
  added : List Warning
  removed : List Warning
  unchanged_count : Nat
  unchanged_warnings : Nat
  unchanged_hints : Nat
deriving DecidableEq

/-- One added, removed, unchanged counter triple of the by_type dictionary. -/
structure KindCounts where
  added : Nat
  removed : Nat
  unchanged : Nat
deriving DecidableEq

/-- comparator.Summary. The by_type dictionary has exactly the two keys
Warning and Hint, modelled as two fields. -/
structure Summary where
  total_added : Nat
  total_removed : Nat
  total_unchanged : Nat
  by_type_warning : KindCounts
  by_type_hint : KindCounts
  by_stage : List ComparisonResult
deriving DecidableEq

/-- The Summary constructed by the Summary dataclass defaults. -/
def initSummary : Summary := ⟨0, 0, 0, ⟨0, 0, 0⟩, ⟨0, 0, 0⟩, []⟩

/-- Appending one record to an insertion-ordered grouping, creating its
stage key at the end when absent, as the dictionary of group_by_stage. -/
def addToGroup : List (String × List Warning) → Warning → List (String × List Warning)
  | [], w => [(w.stage, [w])]
  | (k, vs) :: rest, w =>
    if k = w.stage then (k, vs ++ [w]) :: rest else (k, vs) :: addToGroup rest w

/-- comparator.group_by_stage. -/
def group_by_stage (warnings : List Warning) : List (String × List Warning) :=
  warnings.foldl addToGroup []

/-- Dictionary lookup with the empty-list default used by compare_logs. -/
def lookupStage : List (String × List Warning) → String → List Warning
  | [], _ => []
  | (k, vs) :: rest, s => if k = s then vs else lookupStage rest s

/-- The key list of a grouping. -/
def stageKeys (g : List (String × List Warning)) : List String := g.map Prod.fst

/-- First-occurrence deduplication with an accumulator of already seen
keys. -/
def dedupKeys (seen : List String) : List String → List String
  | [] => []
  | s :: rest =>
    if s ∈ seen then dedupKeys seen rest else s :: dedupKeys (s :: seen) rest

/-- comparator.match_stages: the union of the stage names of both runs,
sorted lexicographically; every name is matched with itself, so the pair
list of the source is modelled by the name list. -/
def match_stages (oldKeys newKeys : List String) : List String :=
  List.insertionSort (· ≤ ·) (dedupKeys [] (oldKeys ++ newKeys))

/-- The per-stage ComparisonResult built inside the compare_logs loop.
Set membership tests on normalized texts use Finset, matching the Python
sets built with set comprehensions; the filters realize the list
comprehensions over the stage records, and the two per-kind counts realize
the scan over old-run records with the if and elif on the record type. -/
def mkStageResult (old_sw new_sw : List Warning) (name : String) : ComparisonResult :=
  let old_texts : Finset String := (old_sw.map Warning.text).toFinset
  let new_texts : Finset String := (new_sw.map Warning.text).toFinset
  let added_warnings := new_sw.filter (fun w => decide (w.text ∈ new_texts \ old_texts))
  let removed_warnings := old_sw.filter (fun w => decide (w.text ∈ old_texts \ new_texts))
  { stage_name := name
    added := added_warnings
    removed := removed_warnings
    unchanged_count := (old_texts ∩ new_texts).card
    unchanged_warnings :=
      old_sw.countP (fun w =>
        decide (w.text ∈ old_texts ∩ new_texts) && decide (w.type = "Warning"))
    unchanged_hints :=
      old_sw.countP (fun w =>
        decide (w.text ∈ old_texts ∩ new_texts) && decide (w.type = "Hint")) }

/-- The per-stage body of the compare_logs loop: build the stage result,
update the totals, the by_type tallies and the by_stage list. The by_type
increments of Python index the dictionary with the record type and are
rendered as countP per kind (a type outside Warning and Hint would raise
KeyError in the source and is counted nowhere here; validated
configurations produce no such type). -/
def processStage (old_stages new_stages : List (String × List Warning))
    (summary : Summary) (name : String) : Summary :=
  let old_sw := lookupStage old_stages name
  let new_sw := lookupStage new_stages name
  let r := mkStageResult old_sw new_sw name
  { total_added := summary.total_added + r.added.length
    total_removed := summary.total_removed + r.removed.length
    total_unchanged := summary.total_unchanged + r.unchanged_count
    by_type_warning :=
      { added := summary.by_type_warning.added +
          r.added.countP (fun w => decide (w.type = "Warning"))
        removed := summary.by_type_warning.removed +
          r.removed.countP (fun w => decide (w.type = "Warning"))
        unchanged := summary.by_type_warning.unchanged + r.unchanged_warnings }
    by_type_hint :=
      { added := summary.by_type_hint.added +
          r.added.countP (fun w => decide (w.type = "Hint"))
        removed := summary.by_type_hint.removed +
          r.removed.countP (fun w => decide (w.type = "Hint"))
        unchanged := summary.by_type_hint.unchanged + r.unchanged_hints }
    by_stage :=
      if r.added = [] ∧ r.removed = [] ∧ r.unchanged_count = 0 then summary.by_stage
      else summary.by_stage ++ [r] }

/-- comparator.compare_logs. -/
def compare_logs (old_warnings new_warnings : List Warning) : Summary :=
  let old_stages := group_by_stage old_warnings
  let new_stages := group_by_stage new_warnings
  let names := match_stages (stageKeys old_stages) (stageKeys new_stages)
  names.foldl (processStage old_stages new_stages) initSummary

/-- The error kinds of parser._read_log_file. -/
inductive LogReadError where
  | fileNotFound : LogReadError
  | encodingError : LogReadError
deriving DecidableEq

/-- The fixed encoding candidate list of parser._read_log_file. -/
def encodings : List String := ["utf-8", "windows-1251", "cp866"]

/-- Attempting a list of encodings in order, returning the lines of the
first decoder that succeeds. -/
def tryEncodings (decode : String → Option (List String)) : List String → Option (List String)
  | [] => none
  | e :: rest =>
    match decode e with
    | some ls => some ls
    | none => tryEncodings decode rest

/-- parser._read_log_file with its environment abstracted: pathExists
states whether os.path.exists holds for the log path, and decode maps an
encoding name to the decoded line list, none meaning UnicodeDecodeError.
The source raises FileNotFoundError before touching any encoding, then
tries the fixed encodings in order and raises EncodingError when all
fail. -/
def read_log_file (pathExists : Bool) (decode : String → Option (List String)) :
    Except LogReadError (List String) :=
  if pathExists = false then Except.error LogReadError.fileNotFound
  else
    match tryEncodings decode encodings with
    | some ls => Except.ok ls
    | none => Except.error LogReadError.encodingError

/-- The records of one run belonging to a given stage name; by the grouping
lemmas below this is exactly the stage group that compare_logs looks up. -/
def stageRecords (ws : List Warning) (s : String) : List Warning :=
  ws.filter (fun w => decide (w.stage = s))

/-- The set of distinct normalized texts of one run for one stage. -/
def stageTexts (ws : List Warning) (s : String) : Finset String :=
  ((stageRecords ws s).map Warning.text).toFinset

/-- The distinct normalized keys a stage has in both runs. -/
def unchangedKeys (old_warnings new_warnings : List Warning) (s : String) : Finset String :=
  stageTexts old_warnings s ∩ stageTexts new_warnings s

/-- Scenario configuration for the depth-closing property: four markers,
no target steps. -/
def c1Config : Config :=
  { target_steps := []
    stage_markers := ["<a>", "<b>", "<c>", "<d>"]
    warning_patterns := []
    ignore_timestamp := true
    ignore_path_prefix := true
    ignore_case := false }

/-- Scenario lines opening stages at depths 0, 4, 8 and then 4. -/
def c1Lines : List String := ["<a>: x", "    <b>: x", "\t\t<c>: x", "    <d>: x"]

/-- The stage tree the scenario must produce: the depth-8 stage is closed
inside the first depth-4 stage, and the second depth-4 stage is a child of
the depth-0 stage. -/
def c1Tree : BuildStep :=
  ⟨"<a>", 0, 1, 4, ["<a>: x"],
    [⟨"<b>", 4, 2, 3, ["    <b>: x"], [⟨"<c>", 8, 3, 3, ["\t\t<c>: x"], []⟩]⟩,
     ⟨"<d>", 4, 4, 4, ["    <d>: x"], []⟩]⟩

/-- The diagnostic line of the extraction scenario. -/
def c2Line : String := "[14:13:30] :\t [<dcc>] file.pas(123) Warning: unused variable"

/-- Scenario configuration for the opener-line claim: two markers and the
default warning patterns. -/
def c10Config : Config :=
  { target_steps := []
    stage_markers := ["<a>", "<x>"]
    warning_patterns := defaultConfig.warning_patterns
    ignore_timestamp := true
    ignore_path_prefix := true
    ignore_case := false }

/-- Scenario lines in which the line opening the inner stage itself
contains the Warning pattern. -/
def c10Lines : List String := ["<a>: intro", "    <x>: Warning: oops"]

/-- The single record the scenario must produce, attributed to the inner
stage that its line opened, not to the outer stage. -/
def c10Record : Warning :=
  ⟨"<x>: Warning: oops", "<x>: Warning: oops", "Warning", "<x>", "", 0⟩

/-- Old run with a duplicated unchanged key for the unchanged-counting
claim. -/
def c5Old : List Warning :=
  [⟨"k", "o1", "Warning", "s", "", 0⟩, ⟨"k", "o2", "Warning", "s", "", 0⟩]

/-- New run with the same single key for the unchanged-counting claim. -/
def c5New : List Warning := [⟨"k", "n1", "Warning", "s", "", 0⟩]

/-- A decoder on which only the third candidate encoding succeeds. -/
def cp866OnlyDecode : String → Option (List String) :=
  fun e => if e = "cp866" then some ["строка"] else none

/-- Characters whose absence disables every prefix-stripping and rewriting
step of the normalizer: the opening square bracket drives the kind-tag,
timestamp and bracket steps, the colon drives the flag, path-prefix and
keyword steps, and the opening parenthesis drives the line-number step. -/
def goodChar (c : Char) : Prop := c ≠ '[' ∧ c ≠ ':' ∧ c ≠ '('

instance (c : Char) : Decidable (goodChar c) := by
  unfold goodChar
  infer_instance

/-- Whitespace discipline of collapsed text: every whitespace character is
a plain space. -/
def spacesOnly (l : List Char) : Prop := ∀ c ∈ l, pyWS c = true → c = ' '

/-- Whitespace discipline of collapsed text: no two adjacent whitespace
characters. -/
def noWSRun (l : List Char) : Prop :=
  List.Chain' (fun a b => ¬ (pyWS a = true ∧ pyWS b = true)) l

/-- Old run for the conservation witness: keys a and b in stage s. -/
def c8Old : List Warning :=
  [⟨"a", "", "Warning", "s", "", 0⟩, ⟨"b", "", "Warning", "s", "", 0⟩]

/-- New run for the conservation witness: keys b and c in stage s. -/
def c8New : List Warning :=
  [⟨"b", "", "Warning", "s", "", 0⟩, ⟨"c", "", "Warning", "s", "", 0⟩]

/-- The stack of open steps after an opening line keeps exactly the entries
of depth strictly below the new indentation, in order, below the new entry. -/
theorem openClose_fst (indent ln : Nat) (stack : List (Nat × BuildStep))
    (roots : List BuildStep) :
    ((openClose indent ln stack roots).1).map Prod.fst
      = (stack.map Prod.fst).dropWhile (fun x => decide (indent ≤ x)) := by
  have hdw : (stack.map Prod.fst).dropWhile (fun x => decide (indent ≤ x))
      = (stack.dropWhile (fun e => decide (indent ≤ e.1))).map Prod.fst := by
    rw [List.dropWhile_map]
    rfl
  rw [hdw]
  unfold openClose
  cases hc : closeList ln ((stack.takeWhile (fun e => indent ≤ e.1)).map Prod.snd) with
  | none => simp [hc]
  | some n =>
    cases hr : stack.dropWhile (fun e => decide (indent ≤ e.1)) with
    | nil => simp [hc, hr]
    | cons hd tl =>
      cases hd with
      | mk d p => simp [hc, hr]

/-- Opening a stage replaces the stack top by a fresh node carrying the
opening line as its only content line. -/
theorem parseLine_open (config : Config) (st : ParseState) (ln : Nat) (line : String)
    (nm : String) (d : Nat) (hstep : extractStepInfo line config = some (nm, d))
    (hne : pyStrip line.data ≠ []) :
    (parseLine config st ln line).stack
      = (d, ⟨nm, d, ln, ln, [line], []⟩)
          :: (openClose d (ln - 1) st.stack st.roots).1 := by
  simp [parseLine, hne, hstep]

/-- C1. On a stage-opening line at depth d the parser pops every open node
of depth at least d and pushes the new node onto what remains, and on the
concrete scenario with opens at depths 0, 4, 8 and then 4 it closes the
depth-8 node at the previous line, keeps the depth-0 node open, and attaches
the new depth-4 node as a child of the depth-0 node rather than as a sibling
of the depth-8 node. -/
theorem C1_depth_closing :
    (∀ (config : Config) (st : ParseState) (ln : Nat) (line : String) (nm : String)
        (d : Nat),
        extractStepInfo line config = some (nm, d) → pyStrip line.data ≠ [] →
        (parseLine config st ln line).stack.map Prod.fst
          = d :: (st.stack.map Prod.fst).dropWhile (fun x => decide (d ≤ x))) ∧
      parse_log c1Lines c1Config = [c1Tree] := by
  constructor
  · intro config st ln line nm d hstep hne
    rw [parseLine_open config st ln line nm d hstep hne]
    simp [openClose_fst]
  · rfl

/-- Witness for C1: the general part applied to the concrete second scenario
line arriving on a stack holding the depth-0 node. -/
theorem C1_depth_closing_witness :
    (parseLine c1Config ⟨[(0, ⟨"<a>", 0, 1, 1, ["<a>: x"], []⟩)], []⟩ 2
        "    <b>: x").stack.map Prod.fst
      = 4 :: (([(0, (⟨"<a>", 0, 1, 1, ["<a>: x"], []⟩ : BuildStep))].map Prod.fst).dropWhile
          (fun x => decide (4 ≤ x))) :=
  C1_depth_closing.1 c1Config ⟨[(0, ⟨"<a>", 0, 1, 1, ["<a>: x"], []⟩)], []⟩ 2
    "    <b>: x" "<b>" 4 (by decide) (by decide)

/-- C2. The scenario line, processed as a content line of any stage under
the default configuration, yields exactly one record with kind Warning,
file path file.pas, line number 123 and the normalized text with all the
noise stripped. -/
theorem C2_extraction_scenario (nm : String) (lv s e : Nat) :
    extract_warnings ⟨nm, lv, s, e, [c2Line], []⟩ defaultConfig
      = [⟨"Warning: unused variable", c2Line, "Warning", nm, "file.pas", 123⟩] := rfl

/-- C3 counterexample. Normalization is not idempotent: one pass on the
input strips only the bracketed token, exposing a flag prefix that a second
pass strips as well. -/
theorem C3_counterexample :
    normalize_warning (normalize_warning "[x]W: foo" defaultConfig) defaultConfig
      ≠ normalize_warning "[x]W: foo" defaultConfig := by decide

/-- C4 counterexample. The path-before-keyword step has no anchor: it does
rewrite an occurrence that is not at the start of the text, both at the
step level and through the whole normalizer, contradicting the claim that
such an occurrence is left in place. -/
theorem C4_counterexample :
    stripPathBeforeKw ("abc file.pas Warning: x".data.length)
        "abc file.pas Warning: x".data ≠ "abc file.pas Warning: x".data ∧
      normalize_warning "abc file.pas Warning: x" defaultConfig = "abcWarning: x" := by
  decide

/-- C4 as amended. The path-before-keyword step strips a whitespace-led
path before a Warning or Hint keyword down to the keyword wherever the
occurrence sits: at the start of the text and equally in the middle of
the text. -/
theorem C4_path_strip_everywhere :
    stripPathBeforeKw ("file.pas Warning: a".data.length) "file.pas Warning: a".data
        = "Warning: a".data ∧
      stripPathBeforeKw ("abc file.pas Warning: x".data.length)
          "abc file.pas Warning: x".data = "abcWarning: x".data ∧
      normalize_warning "abc file.pas Warning: x" defaultConfig = "abcWarning: x" := by
  decide

/-- The first target step whose pattern occurs in the line wins, whatever
comes later in the configured order. -/
theorem findTarget_first (l : List Char) (pre : List TargetStep) (ts : TargetStep)
    (post : List TargetStep) (hpre : ∀ p ∈ pre, substrIn p.pattern.data l = false)
    (hts : substrIn ts.pattern.data l = true) :
    findTarget (pre ++ ts :: post) l = some ts.name := by
  induction pre with
  | nil => simp [findTarget, hts]
  | cons p ps ih =>
    have hp := hpre p (List.mem_cons_self p ps)
    have hps : ∀ q ∈ ps, substrIn q.pattern.data l = false := by
      intro q hq
      exact hpre q (List.mem_cons_of_mem p hq)
    simp [findTarget, hp]
    exact ih hps

/-- C6. Target-step patterns are tested as substrings of the original line
before any marker matching, the first matching pattern in configured order
winning: whenever some target pattern occurs in the line, the opened stage
carries the name configured for the first such pattern, never a marker
name. -/
theorem C6_target_precedence (config : Config) (line : String) (pre : List TargetStep)
    (ts : TargetStep) (post : List TargetStep)
    (hsteps : config.target_steps = pre ++ ts :: post)
    (hpre : ∀ p ∈ pre, substrIn p.pattern.data line.data = false)
    (hts : substrIn ts.pattern.data line.data = true) :
    ∃ d, extractStepInfo line config = some (ts.name, d) := by
  refine ⟨calculate_indentation (cleanTimestamp line.data), ?_⟩
  have hft : findTarget config.target_steps line.data = some ts.name := by
    rw [hsteps]
    exact findTarget_first line.data pre ts post hpre hts
  simp [extractStepInfo, hft]

/-- Witness for C6: a line containing both the default target pattern and
the marker pattern with a colon opens the stage under the target name. -/
theorem C6_target_precedence_witness :
    ∃ d, extractStepInfo "[10:00:01] : Step 4/21: BuildOrionPRO <build>: go"
        defaultConfig = some ("BuildOrionPRO", d) :=
  C6_target_precedence defaultConfig "[10:00:01] : Step 4/21: BuildOrionPRO <build>: go"
    [] ⟨"Step 4/21: BuildOrionPRO", "BuildOrionPRO"⟩ [] rfl (by intro p hp; cases hp)
    (by decide)

/-- C9. Reading a log first fails with file-not-found when the path does
not exist, otherwise tries exactly utf-8, windows-1251 and cp866 in that
order, returns the lines of the first encoding that decodes, and fails with
an encoding error when all three fail. -/
theorem C9_read_encoding_order (decode : String → Option (List String))
    (ls : List String) :
    read_log_file false decode = Except.error LogReadError.fileNotFound ∧
      (decode "utf-8" = some ls → read_log_file true decode = Except.ok ls) ∧
      (decode "utf-8" = none → decode "windows-1251" = some ls →
        read_log_file true decode = Except.ok ls) ∧
      (decode "utf-8" = none → decode "windows-1251" = none →
        decode "cp866" = some ls → read_log_file true decode = Except.ok ls) ∧
      (decode "utf-8" = none → decode "windows-1251" = none → decode "cp866" = none →
        read_log_file true decode = Except.error LogReadError.encodingError) := by
  refine ⟨rfl, ?_, ?_, ?_, ?_⟩ <;>
    · intros
      simp [read_log_file, tryEncodings, encodings, *]

/-- Witness for C9: on a decoder succeeding only for cp866 the read returns
the cp866 lines, and a missing file is reported before any decoding. -/
theorem C9_read_encoding_order_witness :
    read_log_file true cp866OnlyDecode = Except.ok ["строка"] ∧
      read_log_file false cp866OnlyDecode = Except.error LogReadError.fileNotFound :=
  ⟨(C9_read_encoding_order cp866OnlyDecode ["строка"]).2.2.2.1 rfl rfl rfl,
    (C9_read_encoding_order cp866OnlyDecode ["строка"]).1⟩

/-- C10. A stage-opening line is stored as the single initial content line
of the new node itself, and on the concrete scenario the opening line of
the inner stage, which also contains the Warning pattern, yields exactly
one record attributed to the inner stage it opened. -/
theorem C10_opener_line_in_own_stage :
    (∀ (config : Config) (st : ParseState) (ln : Nat) (line : String) (nm : String)
        (d : Nat),
        extractStepInfo line config = some (nm, d) → pyStrip line.data ≠ [] →
        ∃ rest, (parseLine config st ln line).stack
            = (d, ⟨nm, d, ln, ln, [line], []⟩) :: rest) ∧
      extractWarningsList (parse_log c10Lines c10Config) c10Config = [c10Record] := by
  constructor
  · intro config st ln line nm d hstep hne
    exact ⟨(openClose d (ln - 1) st.stack st.roots).1,
      parseLine_open config st ln line nm d hstep hne⟩
  · rfl

/-- Witness for C10: the general part applied to the first scenario line on
the empty stack. -/
theorem C10_opener_line_in_own_stage_witness :
    ∃ rest, (parseLine c10Config ⟨[], []⟩ 1 "<a>: intro").stack
        = (0, ⟨"<a>", 0, 1, 1, ["<a>: intro"], []⟩) :: rest :=
  C10_opener_line_in_own_stage.1 c10Config ⟨[], []⟩ 1 "<a>: intro" "<a>" 0
    (by decide) (by decide)

/-- Looking up a key after adding one record either appends the record to
that key or leaves the lookup unchanged. -/
theorem lookup_addToGroup (acc : List (String × List Warning)) (w : Warning) (s : String) :
    lookupStage (addToGroup acc w) s
      = if w.stage = s then lookupStage acc s ++ [w] else lookupStage acc s := by
  induction acc with
  | nil => by_cases h : w.stage = s <;> simp [addToGroup, lookupStage, h]
  | cons kv rest ih =>
    obtain ⟨k, vs⟩ := kv
    by_cases hk : k = w.stage
    · subst hk
      by_cases hs : w.stage = s <;> simp [addToGroup, lookupStage, hs]
    · by_cases hs : k = s
      · subst hs
        have hws : ¬ w.stage = k := fun h => hk h.symm
        simp [addToGroup, lookupStage, hk, hws]
      · simp [addToGroup, lookupStage, hk, hs, ih]

/-- The stage group that compare_logs looks up is exactly the records of
that stage in input order. -/
theorem lookup_group (ws : List Warning) (s : String) :
    lookupStage (group_by_stage ws) s = stageRecords ws s := by
  have main : ∀ (acc : List (String × List Warning)),
      lookupStage (ws.foldl addToGroup acc) s = lookupStage acc s ++ stageRecords ws s := by
    induction ws with
    | nil => intro acc; simp [stageRecords]
    | cons w rest ih =>
      intro acc
      rw [List.foldl_cons, ih (addToGroup acc w), lookup_addToGroup]
      by_cases h : w.stage = s <;> simp [h, stageRecords, List.filter_cons]
  simpa [group_by_stage, lookupStage] using main []

/-- Key membership after adding one record. -/
theorem mem_keys_addToGroup (acc : List (String × List Warning)) (w : Warning) (s : String) :
    s ∈ stageKeys (addToGroup acc w) ↔ s ∈ stageKeys acc ∨ s = w.stage := by
  induction acc with
  | nil => simp [addToGroup, stageKeys, eq_comm]
  | cons kv rest ih =>
    obtain ⟨k, vs⟩ := kv
    by_cases hk : k = w.stage <;> simp [addToGroup, stageKeys, hk, or_assoc] at * <;> tauto

/-- A stage name is a key of the grouping exactly when some record carries
it. -/
theorem mem_keys_group (ws : List Warning) (s : String) :
    s ∈ stageKeys (group_by_stage ws) ↔ ∃ w ∈ ws, w.stage = s := by
  have main : ∀ (acc : List (String × List Warning)),
      s ∈ stageKeys (ws.foldl addToGroup acc) ↔ s ∈ stageKeys acc ∨ ∃ w ∈ ws, w.stage = s := by
    induction ws with
    | nil => intro acc; simp
    | cons w rest ih =>
      intro acc
      rw [List.foldl_cons, ih (addToGroup acc w), mem_keys_addToGroup]
      constructor
      · rintro ((h | h) | h)
        · exact Or.inl h
        · exact Or.inr ⟨w, List.mem_cons_self w rest, h.symm⟩
        · obtain ⟨v, hv, hvs⟩ := h
          exact Or.inr ⟨v, List.mem_cons_of_mem w hv, hvs⟩
      · rintro (h | ⟨v, hv, hvs⟩)
        · exact Or.inl (Or.inl h)
        · rcases List.mem_cons.mp hv with hvw | hvr
          · subst hvw; exact Or.inl (Or.inr hvs.symm)
          · exact Or.inr ⟨v, hvr, hvs⟩
  simpa [group_by_stage, stageKeys] using main []

/-- Membership in the deduplicated key list. -/
theorem mem_dedupKeys (l : List String) (seen : List String) (s : String) :
    s ∈ dedupKeys seen l ↔ s ∈ l ∧ s ∉ seen := by
  induction l generalizing seen with
  | nil => simp [dedupKeys]
  | cons a rest ih =>
    by_cases h : a ∈ seen
    · rw [dedupKeys, if_pos h, ih]
      constructor
      · rintro ⟨hr, hs⟩
        exact ⟨List.mem_cons_of_mem a hr, hs⟩
      · rintro ⟨hal, hs⟩
        rcases List.mem_cons.mp hal with hsa | hr
        · exact absurd (hsa ▸ h) hs
        · exact ⟨hr, hs⟩
    · rw [dedupKeys, if_neg h, List.mem_cons, ih]
      constructor
      · rintro (hsa | ⟨hr, hs⟩)
        · exact ⟨hsa ▸ List.mem_cons_self a rest, hsa ▸ h⟩
        · exact ⟨List.mem_cons_of_mem a hr,
            fun hmem => hs (List.mem_cons_of_mem a hmem)⟩
      · rintro ⟨hal, hs⟩
        by_cases hsa : s = a
        · exact Or.inl hsa
        · rcases List.mem_cons.mp hal with h1 | hr
          · exact absurd h1 hsa
          · refine Or.inr ⟨hr, ?_⟩
            intro hm
            rcases List.mem_cons.mp hm with h1 | h2
            · exact hsa h1
            · exact hs h2

/-- The deduplicated key list has no duplicate. -/
theorem nodup_dedupKeys (l : List String) (seen : List String) :
    (dedupKeys seen l).Nodup := by
  induction l generalizing seen with
  | nil => simp [dedupKeys]
  | cons a rest ih =>
    by_cases h : a ∈ seen
    · rw [dedupKeys, if_pos h]
      exact ih seen
    · rw [dedupKeys, if_neg h]
      refine List.Nodup.cons ?_ (ih (a :: seen))
      intro hmem
      exact ((mem_dedupKeys rest (a :: seen) a).mp hmem).2 (List.mem_cons_self a seen)

/-- Membership in the matched stage-name list is membership in either key
list. -/
theorem mem_match_stages (x y : List String) (s : String) :
    s ∈ match_stages x y ↔ s ∈ x ∨ s ∈ y := by
  unfold match_stages
  rw [(List.perm_insertionSort (· ≤ ·) (dedupKeys [] (x ++ y))).mem_iff]
  simp [mem_dedupKeys]

/-- The matched stage-name list does not depend on the order of the two
runs. -/
theorem match_stages_comm (x y : List String) : match_stages x y = match_stages y x := by
  apply List.eq_of_perm_of_sorted ?_ (List.sorted_insertionSort (· ≤ ·) _)
    (List.sorted_insertionSort (· ≤ ·) _)
  refine ((List.perm_insertionSort (· ≤ ·) _).trans ?_).trans
    (List.perm_insertionSort (· ≤ ·) _).symm
  refine (List.perm_ext_iff_of_nodup (nodup_dedupKeys _ _) (nodup_dedupKeys _ _)).mpr ?_
  intro a
  simp only [mem_dedupKeys, List.mem_append]
  tauto

/-- Every entry the fold appends to by_stage is the per-stage result of its
own name, so any property of those results holds for all entries. -/
theorem foldl_by_stage_inv (oldG newG : List (String × List Warning))
    (P : ComparisonResult → Prop)
    (hP : ∀ name, P (mkStageResult (lookupStage oldG name) (lookupStage newG name) name)) :
    ∀ (names : List String) (acc : Summary), (∀ r ∈ acc.by_stage, P r) →
      ∀ r ∈ (names.foldl (processStage oldG newG) acc).by_stage, P r := by
  intro names
  induction names with
  | nil => intro acc h; simpa using h
  | cons s rest ih =>
    intro acc h
    rw [List.foldl_cons]
    apply ih
    intro r hr
    simp only [processStage] at hr
    by_cases hc : (mkStageResult (lookupStage oldG s) (lookupStage newG s) s).added = [] ∧
        (mkStageResult (lookupStage oldG s) (lookupStage newG s) s).removed = [] ∧
        (mkStageResult (lookupStage oldG s) (lookupStage newG s) s).unchanged_count = 0
    · rw [if_pos hc] at hr
      exact h r hr
    · rw [if_neg hc] at hr
      rcases List.mem_append.mp hr with hacc | hnew
      · exact h r hacc
      · rw [List.mem_singleton.mp hnew]
        exact hP s

/-- Entries of by_stage survive the rest of the fold. -/
theorem foldl_by_stage_mono (oldG newG : List (String × List Warning)) :
    ∀ (names : List String) (acc : Summary) (r : ComparisonResult), r ∈ acc.by_stage →
      r ∈ (names.foldl (processStage oldG newG) acc).by_stage := by
  intro names
  induction names with
  | nil => intro acc r h; simpa using h
  | cons s rest ih =>
    intro acc r h
    rw [List.foldl_cons]
    apply ih
    simp only [processStage]
    split
    · exact h
    · exact List.mem_append_left _ h

/-- When a processed name fails the drop condition its per-stage result
lands in by_stage. -/
theorem foldl_by_stage_mem (oldG newG : List (String × List Warning)) (s : String)
    (hcond : ¬ ((mkStageResult (lookupStage oldG s) (lookupStage newG s) s).added = [] ∧
        (mkStageResult (lookupStage oldG s) (lookupStage newG s) s).removed = [] ∧
        (mkStageResult (lookupStage oldG s) (lookupStage newG s) s).unchanged_count = 0)) :
    ∀ (names : List String) (acc : Summary), s ∈ names →
      mkStageResult (lookupStage oldG s) (lookupStage newG s) s
        ∈ (names.foldl (processStage oldG newG) acc).by_stage := by
  intro names
  induction names with
  | nil => intro acc h; cases h
  | cons a rest ih =>
    intro acc hmem
    rw [List.foldl_cons]
    rcases List.mem_cons.mp hmem with hsa | hsr
    · subst hsa
      apply foldl_by_stage_mono
      simp only [processStage]
      rw [if_neg hcond]
      exact List.mem_append_right _ (List.mem_singleton.mpr rfl)
    · exact ih _ hsr

/-- A per-stage result with no unchanged key has zero per-kind unchanged
tallies. -/
theorem mk_unchanged_zero (o n : List Warning) (s : String)
    (h : (mkStageResult o n s).unchanged_count = 0) :
    (mkStageResult o n s).unchanged_warnings = 0 ∧
      (mkStageResult o n s).unchanged_hints = 0 := by
  simp only [mkStageResult] at h ⊢
  have hempty : ((o.map Warning.text).toFinset ∩ (n.map Warning.text).toFinset) = ∅ :=
    Finset.card_eq_zero.mp h
  rw [hempty]
  constructor <;> · apply List.countP_eq_zero.mpr; intro w hw; simp

/-- Along the fold, the Warning-kind unchanged tally of the summary equals
the sum of the per-stage unchanged_warnings of the entries kept in
by_stage. -/
theorem foldl_btw_unchanged_sum (oldG newG : List (String × List Warning)) :
    ∀ (names : List String) (acc : Summary),
      acc.by_type_warning.unchanged
          = (acc.by_stage.map ComparisonResult.unchanged_warnings).sum →
      (names.foldl (processStage oldG newG) acc).by_type_warning.unchanged
          = (((names.foldl (processStage oldG newG) acc).by_stage.map
              ComparisonResult.unchanged_warnings)).sum := by
  intro names
  induction names with
  | nil => intro acc h; simpa using h
  | cons s rest ih =>
    intro acc h
    rw [List.foldl_cons]
    apply ih
    simp only [processStage]
    by_cases hc : (mkStageResult (lookupStage oldG s) (lookupStage newG s) s).added = [] ∧
        (mkStageResult (lookupStage oldG s) (lookupStage newG s) s).removed = [] ∧
        (mkStageResult (lookupStage oldG s) (lookupStage newG s) s).unchanged_count = 0
    · rw [if_pos hc]
      have hz := (mk_unchanged_zero _ _ _ hc.2.2).1
      simp [hz, h]
    · rw [if_neg hc]
      simp [h]

/-- Along the fold, the Hint-kind unchanged tally of the summary equals the
sum of the per-stage unchanged_hints of the entries kept in by_stage. -/
theorem foldl_bth_unchanged_sum (oldG newG : List (String × List Warning)) :
    ∀ (names : List String) (acc : Summary),
      acc.by_type_hint.unchanged
          = (acc.by_stage.map ComparisonResult.unchanged_hints).sum →
      (names.foldl (processStage oldG newG) acc).by_type_hint.unchanged
          = (((names.foldl (processStage oldG newG) acc).by_stage.map
              ComparisonResult.unchanged_hints)).sum := by
  intro names
  induction names with
  | nil => intro acc h; simpa using h
  | cons s rest ih =>
    intro acc h
    rw [List.foldl_cons]
    apply ih
    simp only [processStage]
    by_cases hc : (mkStageResult (lookupStage oldG s) (lookupStage newG s) s).added = [] ∧
        (mkStageResult (lookupStage oldG s) (lookupStage newG s) s).removed = [] ∧
        (mkStageResult (lookupStage oldG s) (lookupStage newG s) s).unchanged_count = 0
    · rw [if_pos hc]
      have hz := (mk_unchanged_zero _ _ _ hc.2.2).2
      simp [hz, h]
    · rw [if_neg hc]
      simp [h]

/-- C5. For every matched stage the unchanged_count is the number of
distinct normalized keys in both runs, while the per-stage per-kind
unchanged tallies count every old-run record whose key is unchanged; the
summary by_kind unchanged counters are the sums of those per-record
tallies, so duplicate old-run occurrences of an unchanged key inflate the
per-kind counts above the distinct-key unchanged_count, as on the concrete
duplicated-key instance. -/
theorem C5_unchanged_tallies :
    (∀ (old_warnings new_warnings : List Warning),
      ∀ r ∈ (compare_logs old_warnings new_warnings).by_stage,
        r.unchanged_count = (unchangedKeys old_warnings new_warnings r.stage_name).card ∧
        r.unchanged_warnings = (stageRecords old_warnings r.stage_name).countP
            (fun w =>
              decide (w.text ∈ unchangedKeys old_warnings new_warnings r.stage_name) &&
                decide (w.type = "Warning")) ∧
        r.unchanged_hints = (stageRecords old_warnings r.stage_name).countP
            (fun w =>
              decide (w.text ∈ unchangedKeys old_warnings new_warnings r.stage_name) &&
                decide (w.type = "Hint"))) ∧
      (∀ (old_warnings new_warnings : List Warning),
        (compare_logs old_warnings new_warnings).by_type_warning.unchanged
            = ((compare_logs old_warnings new_warnings).by_stage.map
                ComparisonResult.unchanged_warnings).sum ∧
          (compare_logs old_warnings new_warnings).by_type_hint.unchanged
            = ((compare_logs old_warnings new_warnings).by_stage.map
                ComparisonResult.unchanged_hints).sum) ∧
      ((compare_logs c5Old c5New).by_stage = [⟨"s", [], [], 1, 2, 0⟩] ∧
        (compare_logs c5Old c5New).by_type_warning.unchanged = 2 ∧
        (compare_logs c5Old c5New).total_unchanged = 1) := by
  refine ⟨?_, ?_, by decide⟩
  · intro old_warnings new_warnings
    apply foldl_by_stage_inv
    · intro name
      rw [lookup_group, lookup_group]
      simp [mkStageResult, unchangedKeys, stageTexts]
    · intro r hr
      cases hr
  · intro old_warnings new_warnings
    constructor
    · exact foldl_btw_unchanged_sum _ _ _ _ (by simp [initSummary])
    · exact foldl_bth_unchanged_sum _ _ _ _ (by simp [initSummary])

/-- Witness for C5: the per-stage part applied to the concrete
duplicated-key instance, where the stage entry has unchanged_count 1 and
unchanged_warnings 2. -/
theorem C5_unchanged_tallies_witness :
    (⟨"s", [], [], 1, 2, 0⟩ : ComparisonResult).unchanged_count
        = (unchangedKeys c5Old c5New "s").card ∧
      (⟨"s", [], [], 1, 2, 0⟩ : ComparisonResult).unchanged_warnings
        = (stageRecords c5Old "s").countP
            (fun w => decide (w.text ∈ unchangedKeys c5Old c5New "s") &&
              decide (w.type = "Warning")) ∧
      (⟨"s", [], [], 1, 2, 0⟩ : ComparisonResult).unchanged_hints
        = (stageRecords c5Old "s").countP
            (fun w => decide (w.text ∈ unchangedKeys c5Old c5New "s") &&
              decide (w.type = "Hint")) :=
  C5_unchanged_tallies.1 c5Old c5New ⟨"s", [], [], 1, 2, 0⟩ (by decide)

/-- Exchanging the two runs exchanges the roles of the two record lists in
one stage result. -/
theorem fold_sym (gA gB : List (String × List Warning)) :
    ∀ (names : List String) (accA accB : Summary),
      accA.by_stage.map (fun r => (r.stage_name, r.added))
          = accB.by_stage.map (fun r => (r.stage_name, r.removed)) →
      ((names.foldl (processStage gA gB) accA).by_stage.map
          (fun r => (r.stage_name, r.added)))
        = ((names.foldl (processStage gB gA) accB).by_stage.map
            (fun r => (r.stage_name, r.removed))) := by
  intro names
  induction names with
  | nil => intro accA accB h; simpa using h
  | cons s rest ih =>
    intro accA accB h
    rw [List.foldl_cons, List.foldl_cons]
    apply ih
    have hadded : (mkStageResult (lookupStage gA s) (lookupStage gB s) s).added
        = (mkStageResult (lookupStage gB s) (lookupStage gA s) s).removed := rfl
    have hrem : (mkStageResult (lookupStage gA s) (lookupStage gB s) s).removed
        = (mkStageResult (lookupStage gB s) (lookupStage gA s) s).added := rfl
    have hcnt : (mkStageResult (lookupStage gA s) (lookupStage gB s) s).unchanged_count
        = (mkStageResult (lookupStage gB s) (lookupStage gA s) s).unchanged_count := by
      simp only [mkStageResult]
      rw [Finset.inter_comm]
    simp only [processStage]
    by_cases hc : (mkStageResult (lookupStage gA s) (lookupStage gB s) s).added = [] ∧
        (mkStageResult (lookupStage gA s) (lookupStage gB s) s).removed = [] ∧
        (mkStageResult (lookupStage gA s) (lookupStage gB s) s).unchanged_count = 0
    · rw [if_pos hc, if_pos ⟨hrem ▸ hc.2.1, hadded ▸ hc.1, hcnt ▸ hc.2.2⟩]
      exact h
    · have hc2 : ¬ ((mkStageResult (lookupStage gB s) (lookupStage gA s) s).added = [] ∧
          (mkStageResult (lookupStage gB s) (lookupStage gA s) s).removed = [] ∧
          (mkStageResult (lookupStage gB s) (lookupStage gA s) s).unchanged_count = 0) := by
        intro h2
        exact hc ⟨hadded.symm ▸ h2.2.1, hrem.symm ▸ h2.1, hcnt.symm ▸ h2.2.2⟩
      have hname : (mkStageResult (lookupStage gA s) (lookupStage gB s) s).stage_name
          = (mkStageResult (lookupStage gB s) (lookupStage gA s) s).stage_name := rfl
      rw [if_neg hc, if_neg hc2]
      rw [List.map_append, List.map_append, h]
      simp only [List.map_cons, List.map_nil]
      rw [hadded, hname]

/-- C7. The added lists of comparing A against B content-equal the removed
lists of comparing B against A: the same records under the same stage
names, in the same stage order. -/
theorem C7_diff_symmetry (A B : List Warning) :
    (compare_logs A B).by_stage.map (fun r => (r.stage_name, r.added))
      = (compare_logs B A).by_stage.map (fun r => (r.stage_name, r.removed)) := by
  simp only [compare_logs]
  rw [match_stages_comm (stageKeys (group_by_stage B)) (stageKeys (group_by_stage A))]
  exact fold_sym _ _ _ initSummary initSummary rfl

/-- The distinct texts of the removed list of a stage result are exactly
its old-minus-new key set. -/
theorem removed_texts_eq (o n : List Warning) (s : String) :
    (((mkStageResult o n s).removed.map Warning.text).toFinset)
      = (o.map Warning.text).toFinset \ (n.map Warning.text).toFinset := by
  ext t
  simp only [mkStageResult, List.mem_toFinset, List.mem_map, List.mem_filter]
  constructor
  · rintro ⟨w, ⟨_, hdec⟩, hwt⟩
    have := of_decide_eq_true hdec
    exact hwt ▸ this
  · intro ht
    have hto : t ∈ (o.map Warning.text).toFinset := (Finset.mem_sdiff.mp ht).1
    obtain ⟨w, hw, hwt⟩ := List.mem_map.mp (List.mem_toFinset.mp hto)
    exact ⟨w, ⟨hw, decide_eq_true (hwt ▸ ht)⟩, hwt⟩

/-- The distinct texts of the added list of a stage result are exactly its
new-minus-old key set. -/
theorem added_texts_eq (o n : List Warning) (s : String) :
    (((mkStageResult o n s).added.map Warning.text).toFinset)
      = (n.map Warning.text).toFinset \ (o.map Warning.text).toFinset := by
  ext t
  simp only [mkStageResult, List.mem_toFinset, List.mem_map, List.mem_filter]
  constructor
  · rintro ⟨w, ⟨_, hdec⟩, hwt⟩
    have := of_decide_eq_true hdec
    exact hwt ▸ this
  · intro ht
    have htn : t ∈ (n.map Warning.text).toFinset := (Finset.mem_sdiff.mp ht).1
    obtain ⟨w, hw, hwt⟩ := List.mem_map.mp (List.mem_toFinset.mp htn)
    exact ⟨w, ⟨hw, decide_eq_true (hwt ▸ ht)⟩, hwt⟩

/-- C8. For every stage present in both runs, the by_stage entry of that
stage satisfies both conservation equalities: unchanged_count plus the
number of distinct removed keys is the number of distinct old keys, and
unchanged_count plus the number of distinct added keys is the number of
distinct new keys. -/
theorem C8_conservation (old_warnings new_warnings : List Warning) (s : String)
    (hold : ∃ w ∈ old_warnings, w.stage = s) (_hnew : ∃ w ∈ new_warnings, w.stage = s) :
    ∃ r ∈ (compare_logs old_warnings new_warnings).by_stage,
      r.stage_name = s ∧
      r.unchanged_count + ((r.removed.map Warning.text).toFinset).card
          = (stageTexts old_warnings s).card ∧
      r.unchanged_count + ((r.added.map Warning.text).toFinset).card
          = (stageTexts new_warnings s).card := by
  obtain ⟨w0, hw0, hw0s⟩ := hold
  have hw0rec : w0 ∈ stageRecords old_warnings s := by
    simp [stageRecords, List.mem_filter, hw0, hw0s]
  have hw0t : w0.text ∈ stageTexts old_warnings s := by
    simp only [stageTexts, List.mem_toFinset, List.mem_map]
    exact ⟨w0, hw0rec, rfl⟩
  have hcond : ¬ ((mkStageResult (lookupStage (group_by_stage old_warnings) s)
        (lookupStage (group_by_stage new_warnings) s) s).added = [] ∧
      (mkStageResult (lookupStage (group_by_stage old_warnings) s)
        (lookupStage (group_by_stage new_warnings) s) s).removed = [] ∧
      (mkStageResult (lookupStage (group_by_stage old_warnings) s)
        (lookupStage (group_by_stage new_warnings) s) s).unchanged_count = 0) := by
    rw [lookup_group, lookup_group]
    rintro ⟨_, hrem, hcnt⟩
    simp only [mkStageResult] at hrem hcnt
    have hempty := Finset.card_eq_zero.mp hcnt
    have hmem := List.filter_eq_nil_iff.mp hrem
    have hnot := hmem w0 hw0rec
    have hw0t2 : w0.text ∈ ((stageRecords old_warnings s).map Warning.text).toFinset := by
      simpa [stageTexts] using hw0t
    have hw0nb : w0.text ∉ ((stageRecords new_warnings s).map Warning.text).toFinset := by
      intro hb
      have hin : w0.text ∈ ((stageRecords old_warnings s).map Warning.text).toFinset ∩
          ((stageRecords new_warnings s).map Warning.text).toFinset :=
        Finset.mem_inter.mpr ⟨hw0t2, hb⟩
      rw [hempty] at hin
      exact absurd hin (Finset.not_mem_empty _)
    apply hnot
    apply decide_eq_true
    exact Finset.mem_sdiff.mpr ⟨hw0t2, hw0nb⟩
  have hsnames : s ∈ match_stages (stageKeys (group_by_stage old_warnings))
      (stageKeys (group_by_stage new_warnings)) := by
    rw [mem_match_stages]
    exact Or.inl ((mem_keys_group old_warnings s).mpr ⟨w0, hw0, hw0s⟩)
  refine ⟨mkStageResult (lookupStage (group_by_stage old_warnings) s)
      (lookupStage (group_by_stage new_warnings) s) s, ?_, rfl, ?_, ?_⟩
  · exact foldl_by_stage_mem _ _ s hcond _ initSummary hsnames
  · rw [lookup_group, lookup_group, removed_texts_eq]
    simp only [mkStageResult]
    exact Finset.card_inter_add_card_sdiff _ _
  · rw [lookup_group, lookup_group, added_texts_eq]
    simp only [mkStageResult]
    rw [Finset.inter_comm]
    exact Finset.card_inter_add_card_sdiff _ _

/-- Two characters are equal exactly when their code points are. -/
theorem char_eq_iff_toNat (c d : Char) : c = d ↔ c.toNat = d.toNat := by
  constructor
  · intro h; rw [h]
  · intro h
    rw [← Char.ofNat_toNat c, h, Char.ofNat_toNat]

/-- The code point of a character built from a small code. -/
theorem char_toNat_ofNat (n : Nat) (h : n < 55296) : (Char.ofNat n).toNat = n := by
  have hv : n.isValidChar := Or.inl h
  rw [Char.ofNat, dif_pos hv]
  rfl

/-- The code point of a lowered character. -/
theorem toLower_toNat (c : Char) :
    (Char.toLower c).toNat = if c.toNat ≥ 65 ∧ c.toNat ≤ 90 then c.toNat + 32
      else c.toNat := by
  by_cases hc : c.toNat ≥ 65 ∧ c.toNat ≤ 90
  · rw [if_pos hc]
    simp only [Char.toLower]
    rw [if_pos hc]
    exact char_toNat_ofNat _ (by omega)
  · rw [if_neg hc]
    simp only [Char.toLower]
    rw [if_neg hc]

/-- Lowering can only produce a character outside the lower-case letter
range when it was the identity. -/
theorem toLower_eq_symbol {c t : Char} (hrange : ¬ (97 ≤ t.toNat ∧ t.toNat ≤ 122)) :
    Char.toLower c = t → c = t := by
  intro h
  have hnat := congrArg Char.toNat h
  rw [toLower_toNat] at hnat
  by_cases hc : c.toNat ≥ 65 ∧ c.toNat ≤ 90
  · rw [if_pos hc] at hnat
    exact absurd ⟨by omega, by omega⟩ hrange
  · rw [if_neg hc] at hnat
    exact (char_eq_iff_toNat c t).mpr hnat

/-- The code points a whitespace character can carry. -/
theorem pyWS_true_toNat {c : Char} (h : pyWS c = true) :
    c.toNat = 32 ∨ c.toNat = 9 ∨ c.toNat = 10 ∨ c.toNat = 13 ∨ c.toNat = 11 ∨
      c.toNat = 12 := by
  simp only [pyWS, Bool.or_eq_true, decide_eq_true_eq] at h
  rcases h with ((((h | h) | h) | h) | h) | h <;> rw [h] <;> decide

/-- Lowering preserves the whitespace predicate. -/
theorem pyWS_toLower (c : Char) : pyWS (Char.toLower c) = pyWS c := by
  by_cases hc : c.toNat ≥ 65 ∧ c.toNat ≤ 90
  · have h1 : (Char.toLower c).toNat = c.toNat + 32 := by rw [toLower_toNat, if_pos hc]
    have e1 : pyWS (Char.toLower c) = false := by
      cases he : pyWS (Char.toLower c)
      · rfl
      · have := pyWS_true_toNat he
        omega
    have e2 : pyWS c = false := by
      cases he : pyWS c
      · rfl
      · have := pyWS_true_toNat he
        omega
    rw [e1, e2]
  · have h1 : Char.toLower c = c :=
      (char_eq_iff_toNat _ _).mpr (by rw [toLower_toNat, if_neg hc])
    rw [h1]

/-- Lowering is idempotent. -/
theorem toLower_toLower (c : Char) : (Char.toLower c).toLower = Char.toLower c := by
  by_cases hc : c.toNat ≥ 65 ∧ c.toNat ≤ 90
  · have h1 : (Char.toLower c).toNat = c.toNat + 32 := by rw [toLower_toNat, if_pos hc]
    have h2 : ¬ ((Char.toLower c).toNat ≥ 65 ∧ (Char.toLower c).toNat ≤ 90) := by omega
    exact (char_eq_iff_toNat _ _).mpr (by rw [toLower_toNat, if_neg h2])
  · have h1 : Char.toLower c = c :=
      (char_eq_iff_toNat _ _).mpr (by rw [toLower_toNat, if_neg hc])
    rw [h1, h1]

/-- Lowering preserves the absence of the three active characters. -/
theorem goodChar_toLower {c : Char} (h : goodChar c) : goodChar (Char.toLower c) := by
  obtain ⟨h1, h2, h3⟩ := h
  refine ⟨?_, ?_, ?_⟩
  · intro he; exact h1 (toLower_eq_symbol (by decide) he)
  · intro he; exact h2 (toLower_eq_symbol (by decide) he)
  · intro he; exact h3 (toLower_eq_symbol (by decide) he)

/-- A case-insensitive prefix starting with an opening bracket never
matches a bracket-free list. -/
theorem ciPrefix_bracket_false (ps : List Char) (l : List Char)
    (hg : ∀ c ∈ l, goodChar c) : ciPrefix ('[' :: ps) l = false := by
  cases l with
  | nil => rfl
  | cons c cs =>
    have hcg := (hg c (List.mem_cons_self c cs)).1
    have hne : ¬ (('[' : Char) = Char.toLower c) := fun h =>
      hcg (toLower_eq_symbol (by decide) h.symm)
    simp [ciPrefix, hne]

/-- The kind-tag step is the identity on bracket-free text. -/
theorem stripKindTag_id {l : List Char} (hg : ∀ c ∈ l, goodChar c) :
    stripKindTag l = l := by
  have h1 : ciPrefix "[Hint]".data l = false := ciPrefix_bracket_false _ l hg
  have h2 : ciPrefix "[Warning]".data l = false := ciPrefix_bracket_false _ l hg
  simp [stripKindTag, h1, h2]

/-- The timestamp step is the identity on bracket-free text. -/
theorem stripTimestampRe_id {l : List Char} (hg : ∀ c ∈ l, goodChar c) :
    stripTimestampRe l = l := by
  cases hl : l with
  | nil => rfl
  | cons c rest =>
    have hcg : goodChar c := by
      rw [hl] at hg
      exact hg c (List.mem_cons_self c rest)
    unfold stripTimestampRe
    split
    · rename_i a b c2 d e f tail heq
      injection heq with h1 _
      exact absurd h1 hcg.1
    · rfl

/-- Elements of the whitespace-stripped remainder live in the list. -/
theorem mem_of_dropWhile {p : Char → Bool} {l : List Char} {c : Char}
    (h : c ∈ l.dropWhile p) : c ∈ l :=
  (List.dropWhile_sublist p).subset h

/-- The flag step is the identity on colon-free text. -/
theorem stripFlag_id {l : List Char} (hg : ∀ c ∈ l, goodChar c) :
    stripFlag l = l := by
  simp only [stripFlag]
  split
  · rename_i rest heq
    have hc : (':' : Char) ∈ l := by
      have hdw : (':' : Char) ∈ l.dropWhile pyWS := by
        rw [heq]
        exact List.mem_cons_self _ _
      exact mem_of_dropWhile hdw
    exact absurd rfl (hg ':' hc).2.1
  · rename_i c rest hne heq
    have hrl : ∀ d ∈ rest, d ∈ l := by
      intro d hd
      have hdw : d ∈ l.dropWhile pyWS := by
        rw [heq]
        exact List.mem_cons_of_mem c hd
      exact mem_of_dropWhile hdw
    split
    · split
      · rename_i rest2 heq2
        have hc : (':' : Char) ∈ l := by
          apply hrl
          have hdw : (':' : Char) ∈ rest.dropWhile pyWS := by
            rw [heq2]
            exact List.mem_cons_self _ _
          exact mem_of_dropWhile hdw
        exact absurd rfl (hg ':' hc).2.1
      · rfl
    · rfl
  · rfl

/-- The bracket-prefix step is the identity on bracket-free text. -/
theorem stripBracketPrefix_id {l : List Char} (hg : ∀ c ∈ l, goodChar c) :
    stripBracketPrefix l = l := by
  simp only [stripBracketPrefix]
  split
  · rename_i rest heq
    have hc : ('[' : Char) ∈ l := by
      have hdw : ('[' : Char) ∈ l.dropWhile pyWS := by
        rw [heq]
        exact List.mem_cons_self _ _
      exact mem_of_dropWhile hdw
    exact absurd rfl (hg '[' hc).1
  · rfl

/-- The path-prefix step is the identity on colon-free text. -/
theorem stripPathPrefixAll_id : ∀ (fuel : Nat) (l : List Char),
    (∀ c ∈ l, goodChar c) → stripPathPrefixAll fuel l = l := by
  intro fuel
  induction fuel with
  | zero => intro l _; cases l <;> rfl
  | succ n ih =>
    intro l hg
    cases l with
    | nil => rfl
    | cons c rest =>
      have hnp : buildAreaPrefix.isPrefixOf (c :: rest) = false := by
        cases hp : buildAreaPrefix.isPrefixOf (c :: rest)
        · rfl
        · have hpre : buildAreaPrefix <+: c :: rest := List.isPrefixOf_iff_prefix.mp hp
          have hcm : (':' : Char) ∈ c :: rest := hpre.subset (by decide)
          exact absurd rfl (hg ':' hcm).2.1
      simp only [stripPathPrefixAll, hnp, Bool.false_eq_true, if_false]
      rw [ih rest (fun d hd => hg d (List.mem_cons_of_mem c hd))]

/-- The line-number step is the identity on parenthesis-free text. -/
theorem stripLineNums_id : ∀ (fuel : Nat) (l : List Char),
    (∀ c ∈ l, goodChar c) → stripLineNums fuel l = l := by
  intro fuel
  induction fuel with
  | zero => intro l _; cases l <;> rfl
  | succ n ih =>
    intro l hg
    cases l with
    | nil => rfl
    | cons c rest =>
      simp only [stripLineNums]
      split
      · rename_i a2 heq
        have hc : ('(' : Char) ∈ c :: rest := by
          have hdw : ('(' : Char) ∈ (c :: rest).dropWhile isTokChar := by
            rw [heq]
            exact List.mem_cons_self _ _
          exact mem_of_dropWhile hdw
        exact absurd rfl (hg '(' hc).2.2
      · rw [ih rest (fun d hd => hg d (List.mem_cons_of_mem c hd))]

/-- The path-before-keyword step is the identity on colon-free text. -/
theorem stripPathBeforeKw_id : ∀ (fuel : Nat) (l : List Char),
    (∀ c ∈ l, goodChar c) → stripPathBeforeKw fuel l = l := by
  intro fuel
  induction fuel with
  | zero => intro l _; cases l <;> rfl
  | succ n ih =>
    intro l hg
    cases l with
    | nil => rfl
    | cons c rest =>
      have hsub : ∀ d ∈ (((c :: rest).dropWhile pyWS).dropWhile
          (fun x => !(pyWS x))).dropWhile pyWS, d ∈ c :: rest := by
        intro d hd
        exact mem_of_dropWhile (mem_of_dropWhile (mem_of_dropWhile hd))
      have htail : ∀ (k : Nat), ¬ (((((c :: rest).dropWhile pyWS).dropWhile
          (fun x => !(pyWS x))).dropWhile pyWS).drop k).take 1 = [':'] := by
        intro k h
        have hc : (':' : Char) ∈ c :: rest := by
          apply hsub
          apply (List.drop_sublist k _).subset
          apply (List.take_sublist 1 _).subset
          rw [h]
          exact List.mem_cons_self _ _
        exact absurd rfl (hg ':' hc).2.1
      simp only [stripPathBeforeKw]
      split_ifs with h1 h2 h3
      · exact absurd (of_decide_eq_true (Bool.and_elim_right h2)) (htail 4)
      · exact absurd (of_decide_eq_true (Bool.and_elim_right h3)) (htail 7)
      · rw [ih rest (fun d hd => hg d (List.mem_cons_of_mem c hd))]
      · rw [ih rest (fun d hd => hg d (List.mem_cons_of_mem c hd))]

/-- Elements of the stripped list live in the list. -/
theorem mem_of_pyStrip {l : List Char} {c : Char} (h : c ∈ pyStrip l) : c ∈ l := by
  unfold pyStrip pyRStrip pyLStrip at h
  have h1 := List.mem_reverse.mp h
  have h2 := mem_of_dropWhile h1
  have h3 := List.mem_reverse.mp h2
  exact mem_of_dropWhile h3

/-- On text free of the three active characters the normalizer reduces to
stripping, whitespace collapsing and optional lowercasing. -/
theorem normalize_plain (config : Config) (text : String)
    (hg : ∀ c ∈ text.data, goodChar c) :
    normalize_warning text config
      = String.mk (if config.ignore_case
          then (pyStrip (collapseWS (pyStrip text.data))).map Char.toLower
          else pyStrip (collapseWS (pyStrip text.data))) := by
  have g0 : ∀ c ∈ pyStrip text.data, goodChar c := fun c hc => hg c (mem_of_pyStrip hc)
  simp only [normalize_warning]
  rw [stripKindTag_id g0, stripTimestampRe_id g0, ite_self, stripFlag_id g0,
    stripBracketPrefix_id g0, stripPathPrefixAll_id _ _ g0, ite_self,
    stripLineNums_id _ _ g0, stripPathBeforeKw_id _ _ g0]

/-- Characters of the collapsed list are spaces or characters of the
list. -/
theorem mem_collapseWSAux {l : List Char} {c : Char} :
    ∀ (b : Bool), c ∈ collapseWSAux b l → c = ' ' ∨ c ∈ l := by
  induction l with
  | nil => intro b h; cases h
  | cons a rest ih =>
    intro b h
    by_cases hws : pyWS a = true
    · cases b
      · simp only [collapseWSAux, hws, if_true] at h
        rcases List.mem_cons.mp h with hc | hc
        · exact Or.inl hc
        · rcases ih true hc with hc2 | hc2
          · exact Or.inl hc2
          · exact Or.inr (List.mem_cons_of_mem a hc2)
      · simp only [collapseWSAux, hws, if_true] at h
        rcases ih true h with hc2 | hc2
        · exact Or.inl hc2
        · exact Or.inr (List.mem_cons_of_mem a hc2)
    · simp only [collapseWSAux, hws, if_false] at h
      rcases List.mem_cons.mp h with hc | hc
      · exact Or.inr (hc ▸ List.mem_cons_self a rest)
      · rcases ih false hc with hc2 | hc2
        · exact Or.inl hc2
        · exact Or.inr (List.mem_cons_of_mem a hc2)

/-- The collapsed list has single spaces as its only whitespace, no two of
them adjacent, and under the flag it starts with a non-whitespace
character. -/
theorem collapse_wsOk (l : List Char) :
    spacesOnly (collapseWSAux false l) ∧ noWSRun (collapseWSAux false l) ∧
      spacesOnly (collapseWSAux true l) ∧ noWSRun (collapseWSAux true l) ∧
      (∀ c, (collapseWSAux true l).head? = some c → pyWS c = false) := by
  induction l with
  | nil =>
    exact ⟨(by intro c hc; cases hc), List.chain'_nil, (by intro c hc; cases hc),
      List.chain'_nil, (by intro c hc; cases hc)⟩
  | cons a rest ih =>
    obtain ⟨ihs, ihn, ihst, ihnt, ihh⟩ := ih
    by_cases hws : pyWS a = true
    · have e1 : collapseWSAux false (a :: rest) = ' ' :: collapseWSAux true rest := by
        simp [collapseWSAux, hws]
      have e2 : collapseWSAux true (a :: rest) = collapseWSAux true rest := by
        simp [collapseWSAux, hws]
      refine ⟨?_, ?_, ?_, ?_, ?_⟩
      · rw [e1]
        intro c hc hpy
        rcases List.mem_cons.mp hc with hc2 | hc2
        · exact hc2
        · exact ihst c hc2 hpy
      · rw [e1]
        apply List.chain'_cons'.mpr
        refine ⟨?_, ihnt⟩
        intro b hb
        intro hcon
        have := ihh b hb
        rw [this] at hcon
        exact Bool.false_ne_true hcon.2
      · rw [e2]; exact ihst
      · rw [e2]; exact ihnt
      · rw [e2]; exact ihh
    · have e3 : collapseWSAux false (a :: rest) = a :: collapseWSAux false rest := by
        simp [collapseWSAux, hws]
      have e4 : collapseWSAux true (a :: rest) = a :: collapseWSAux false rest := by
        simp [collapseWSAux, hws]
      have hsp : spacesOnly (a :: collapseWSAux false rest) := by
        intro c hc hpy
        rcases List.mem_cons.mp hc with hc2 | hc2
        · exact absurd (hc2 ▸ hpy) hws
        · exact ihs c hc2 hpy
      have hch : noWSRun (a :: collapseWSAux false rest) := by
        apply List.chain'_cons'.mpr
        refine ⟨?_, ihn⟩
        intro b _ hcon
        exact hws hcon.1
      refine ⟨?_, ?_, ?_, ?_, ?_⟩
      · rw [e3]; exact hsp
      · rw [e3]; exact hch
      · rw [e4]; exact hsp
      · rw [e4]; exact hch
      · rw [e4]
        intro c hc
        injection hc with hc
        cases hpw : pyWS a
        · rw [← hc]; exact hpw
        · exact absurd hpw hws

/-- Collapsing is the identity on text that is already collapsed; with the
in-run flag set this additionally needs a non-whitespace head. -/
theorem collapse_id_of_wsOk : ∀ (l : List Char), spacesOnly l → noWSRun l →
    collapseWSAux false l = l ∧
      ((∀ c, l.head? = some c → pyWS c = false) → collapseWSAux true l = l) := by
  intro l
  induction l with
  | nil => exact fun _ _ => ⟨rfl, fun _ => rfl⟩
  | cons a rest ih =>
    intro hsp hch
    have hsp2 : spacesOnly rest := fun c hc hpy => hsp c (List.mem_cons_of_mem a hc) hpy
    have hch2 : noWSRun rest := (List.chain'_cons'.mp hch).2
    have hpair := (List.chain'_cons'.mp hch).1
    obtain ⟨ihf, iht⟩ := ih hsp2 hch2
    constructor
    · by_cases hws : pyWS a = true
      · have ha : a = ' ' := hsp a (List.mem_cons_self a rest) hws
        have e1 : collapseWSAux false (a :: rest) = ' ' :: collapseWSAux true rest := by
          simp [collapseWSAux, hws]
        rw [e1, ← ha]
        congr 1
        apply iht
        intro c hc
        have hp := hpair c (Option.mem_def.mpr hc)
        cases hpc : pyWS c
        · rfl
        · exact absurd ⟨hws, hpc⟩ hp
      · have e3 : collapseWSAux false (a :: rest) = a :: collapseWSAux false rest := by
          simp [collapseWSAux, hws]
        rw [e3, ihf]
    · intro hhead
      have hwa : pyWS a = false := hhead a rfl
      have e4 : collapseWSAux true (a :: rest) = a :: collapseWSAux false rest := by
        simp [collapseWSAux, hwa]
      rw [e4, ihf]

/-- The stripped list is an infix of the list. -/
theorem pyStrip_isInfix (l : List Char) : pyStrip l <:+: l := by
  have h1 : pyStrip l <+: pyLStrip l := List.rdropWhile_prefix pyWS (pyLStrip l)
  exact h1.isInfix.trans (List.dropWhile_suffix pyWS).isInfix

/-- Stripping preserves the single-space discipline. -/
theorem spacesOnly_pyStrip {l : List Char} (h : spacesOnly l) : spacesOnly (pyStrip l) :=
  fun c hc hpy => h c (mem_of_pyStrip hc) hpy

/-- Stripping preserves the no-adjacent-whitespace discipline. -/
theorem noWSRun_pyStrip {l : List Char} (h : noWSRun l) : noWSRun (pyStrip l) :=
  List.Chain'.infix h (pyStrip_isInfix l)

/-- Lowering preserves the single-space discipline. -/
theorem spacesOnly_map_toLower {l : List Char} (h : spacesOnly l) :
    spacesOnly (l.map Char.toLower) := by
  intro c hc hpy
  obtain ⟨d, hd, rfl⟩ := List.mem_map.mp hc
  rw [pyWS_toLower] at hpy
  rw [h d hd hpy]
  decide

/-- Lowering preserves the no-adjacent-whitespace discipline. -/
theorem noWSRun_map_toLower {l : List Char} (h : noWSRun l) :
    noWSRun (l.map Char.toLower) := by
  unfold noWSRun
  rw [List.chain'_map]
  apply List.Chain'.imp ?_ h
  intro a b hab hcon
  rw [pyWS_toLower, pyWS_toLower] at hcon
  exact hab hcon

/-- The head of a left-stripped list is not whitespace. -/
theorem head_pyLStrip_not {l : List Char} {c : Char} (h : (pyLStrip l).head? = some c) :
    pyWS c = false := by
  induction l with
  | nil => cases h
  | cons a rest ih =>
    by_cases hws : pyWS a = true
    · rw [pyLStrip, List.dropWhile_cons, if_pos hws] at h
      exact ih h
    · rw [pyLStrip, List.dropWhile_cons, if_neg hws] at h
      injection h with h
      rw [← h]
      cases hpw : pyWS a
      · rfl
      · exact absurd hpw hws

/-- Left stripping is the identity when the head is not whitespace. -/
theorem pyLStrip_eq_self {l : List Char}
    (h : ∀ c, l.head? = some c → pyWS c = false) : pyLStrip l = l := by
  cases l with
  | nil => rfl
  | cons a rest =>
    have ha := h a rfl
    rw [pyLStrip, List.dropWhile_cons, if_neg (by simp [ha])]

/-- The head of a nonempty prefix is the head of the whole list. -/
theorem prefix_head_eq {l₁ l₂ : List Char} {c : Char} (hp : l₁ <+: l₂)
    (h : l₁.head? = some c) : l₂.head? = some c := by
  obtain ⟨t, rfl⟩ := hp
  cases l₁ with
  | nil => cases h
  | cons a r =>
    injection h with h
    rw [← h]
    rfl

/-- Stripping is idempotent. -/
theorem pyStrip_idem (l : List Char) : pyStrip (pyStrip l) = pyStrip l := by
  unfold pyStrip
  have h1 : pyLStrip (pyRStrip (pyLStrip l)) = pyRStrip (pyLStrip l) := by
    apply pyLStrip_eq_self
    intro c hc
    have hpre : pyRStrip (pyLStrip l) <+: pyLStrip l :=
      List.rdropWhile_prefix pyWS (pyLStrip l)
    exact head_pyLStrip_not (prefix_head_eq hpre hc)
  rw [h1]
  exact List.rdropWhile_idempotent pyWS (pyLStrip l)

/-- Stripping commutes with lowering. -/
theorem pyStrip_map_toLower (u : List Char) :
    pyStrip (u.map Char.toLower) = (pyStrip u).map Char.toLower := by
  have hfun : (pyWS ∘ Char.toLower) = pyWS := funext pyWS_toLower
  unfold pyStrip pyRStrip pyLStrip
  rw [List.dropWhile_map, hfun, ← List.map_reverse, List.dropWhile_map, hfun,
    ← List.map_reverse]

/-- C3 as amended. For every configuration whose ignore_patterns carry the
default timestamp and path_prefix regexes (each present or absent, any
ignore_case flag — the configurations the Config model covers),
normalization is idempotent on every string free of the three characters
that drive its stripping and rewriting steps, where it reduces to
whitespace collapsing, trimming and optional lowercasing. On general
strings idempotence fails, as the counterexample shows, and an arbitrary
configured ignore-regex can break idempotence even on such strings, so the
restriction to the default ignore patterns is essential. -/
theorem C3_normalize_idempotent_plain (config : Config) (s : String)
    (hg : ∀ c ∈ s.data, goodChar c) :
    normalize_warning (normalize_warning s config) config
      = normalize_warning s config := by
  rw [normalize_plain config s hg]
  have hgoodu : ∀ c ∈ pyStrip (collapseWS (pyStrip s.data)), goodChar c := by
    intro c hc
    rcases mem_collapseWSAux false (mem_of_pyStrip hc) with h2 | h2
    · rw [h2]
      exact ⟨by decide, by decide, by decide⟩
    · exact hg c (mem_of_pyStrip h2)
  have hspu : spacesOnly (pyStrip (collapseWS (pyStrip s.data))) :=
    spacesOnly_pyStrip (collapse_wsOk (pyStrip s.data)).1
  have hnru : noWSRun (pyStrip (collapseWS (pyStrip s.data))) :=
    noWSRun_pyStrip (collapse_wsOk (pyStrip s.data)).2.1
  have hstripu : pyStrip (pyStrip (collapseWS (pyStrip s.data)))
      = pyStrip (collapseWS (pyStrip s.data)) := pyStrip_idem _
  have hcollu : collapseWS (pyStrip (collapseWS (pyStrip s.data)))
      = pyStrip (collapseWS (pyStrip s.data)) :=
    (collapse_id_of_wsOk _ hspu hnru).1
  cases hic : config.ignore_case with
  | false =>
    rw [if_neg Bool.false_ne_true]
    rw [normalize_plain config (String.mk (pyStrip (collapseWS (pyStrip s.data)))) hgoodu]
    rw [hic, if_neg Bool.false_ne_true]
    show String.mk (pyStrip (collapseWS (pyStrip (pyStrip (collapseWS (pyStrip s.data))))))
      = String.mk (pyStrip (collapseWS (pyStrip s.data)))
    rw [hstripu, hcollu, hstripu]
  | true =>
    rw [if_pos rfl]
    have hgoodt : ∀ c ∈ (pyStrip (collapseWS (pyStrip s.data))).map Char.toLower,
        goodChar c := by
      intro c hc
      obtain ⟨d, hd, rfl⟩ := List.mem_map.mp hc
      exact goodChar_toLower (hgoodu d hd)
    rw [normalize_plain config
      (String.mk ((pyStrip (collapseWS (pyStrip s.data))).map Char.toLower)) hgoodt]
    rw [hic, if_pos rfl]
    have hstript : pyStrip ((pyStrip (collapseWS (pyStrip s.data))).map Char.toLower)
        = (pyStrip (collapseWS (pyStrip s.data))).map Char.toLower := by
      rw [pyStrip_map_toLower, hstripu]
    have hcollt : collapseWS ((pyStrip (collapseWS (pyStrip s.data))).map Char.toLower)
        = (pyStrip (collapseWS (pyStrip s.data))).map Char.toLower :=
      (collapse_id_of_wsOk _ (spacesOnly_map_toLower hspu) (noWSRun_map_toLower hnru)).1
    show String.mk ((pyStrip (collapseWS (pyStrip
        ((pyStrip (collapseWS (pyStrip s.data))).map Char.toLower)))).map Char.toLower)
      = String.mk ((pyStrip (collapseWS (pyStrip s.data))).map Char.toLower)
    rw [hstript, hcollt, hstript, List.map_map]
    congr 1
    apply List.map_congr_left
    intro a _
    exact toLower_toLower a

/-- Witness for the amended C3: idempotence on a concrete plain string with
a double space, under the default configuration. -/
theorem C3_normalize_idempotent_plain_witness :
    normalize_warning (normalize_warning "a  b" defaultConfig) defaultConfig
      = normalize_warning "a  b" defaultConfig :=
  C3_normalize_idempotent_plain defaultConfig "a  b" (by decide)

/-- Witness for C8: conservation on a concrete pair of runs sharing stage
s with old keys a, b and new keys b, c. -/
theorem C8_conservation_witness :
    ∃ r ∈ (compare_logs c8Old c8New).by_stage,
      r.stage_name = "s" ∧
      r.unchanged_count + ((r.removed.map Warning.text).toFinset).card
          = (stageTexts c8Old "s").card ∧
      r.unchanged_count + ((r.added.map Warning.text).toFinset).card
          = (stageTexts c8New "s").card :=
  C8_conservation c8Old c8New "s" (by decide) (by decide)

end LogAnalyzer
